import Mathlib

/-!
Shallow embedding of the `avr-fast-div` library (repository `adbancroft/avr-fast-div`).

Machine integers are modelled as `Nat` with explicit `% 2 ^ w` wherever the C code
can wrap; a value of type `uintW_t` is a `Nat` together with the hypothesis `< 2 ^ w`
on the theorems that need it.  Signed values are modelled as `Int` in the range
`[-2^(w-1), 2^(w-1))`, with two's-complement conversions written out explicitly.

The division core and the alignment divider are generic over the bit width in the
source (template parameter `T`); here they take the width as an explicit `Nat`
argument `n` (half width of the dividend for the narrowing core) resp. `w`.
-/

namespace AvrFastDiv

/-- One step of the restoring-division core, from `divide_step` in
`src/afd_implementation.hpp` (the AVR inline assembly; the portable C loop body in
`include/avr_fast_div.h` lines 194-204 computes the same function).
`n` is the divisor bit width, `dividend` the `2n`-bit working accumulator.
The accumulator is shifted left one bit (carry captured); if the carry is set or the
high `n`-bit half is `≥ divisor`, the divisor is subtracted (mod `2^n`) from the high
half and bit 0 of the low half is set (`ori %A0, 1`). -/
def divide_step (n dividend divisor : Nat) : Nat :=
  let carry := dividend / 2 ^ (2 * n - 1)
  let shifted := dividend * 2 % 2 ^ (2 * n)
  let rem := shifted / 2 ^ n
  let quot := shifted % 2 ^ n
  if carry = 1 ∨ divisor ≤ rem then
    (rem + (2 ^ n - divisor)) % 2 ^ n * 2 ^ n + (quot ||| 1)
  else shifted

/-- The `for (index=0; index<bit_width<TDivisor>; ++index)` loop of `divide`
(`src/afd_implementation.hpp` lines 81-83): iterate `divide_step` a given number of
times on the accumulator. -/
def divide_loop (n divisor : Nat) : Nat → Nat → Nat
  | 0, acc => acc
  | k + 1, acc => divide_loop n divisor k (divide_step n acc divisor)

/-- Narrowing restoring division `divide` from `src/afd_implementation.hpp`
(also `src/avr-fast-div.h` lines 185-196): run exactly `n` (= divisor bit width)
steps and return the low half of the accumulator (`return (TDivisor)dividend;`),
which holds the quotient.  There is no zero-divisor check in this version. -/
def divide (n dividend divisor : Nat) : Nat :=
  divide_loop n divisor n dividend % 2 ^ n

/-- The legacy copy of the core in `include/avr_fast_div.h` (lines 269-283): it has
an explicit zero-divisor check returning `((TDividend)1U << bit_count) * 2 - 1` and
returns the whole `2n`-bit accumulator. -/
def divide_checked (n dividend divisor : Nat) : Nat :=
  if divisor = 0 then 2 ^ n * 2 - 1
  else divide_loop n divisor n dividend

/-- `udivResultFitsInDivisor` from `include/avr_fast_div.h` lines 125-130; `n` is the
divisor bit width (the shift `(sizeof(TDividend)-sizeof(TDivisor))*8` equals `n` for
the supported double-width pairs, and the cast to `TDivisor` is `% 2 ^ n`). -/
def udivResultFitsInDivisor (n dividend divisor : Nat) : Bool :=
  decide (dividend ≤ divisor) || decide (dividend / 2 ^ n % 2 ^ n < divisor)

/-- `is_aligned` from `src/afd_implementation.hpp` lines 88-92:
`((T)(dependent<<1U) > reference) || (dependent & max_bit)` where `max_bit` is the
top bit of the `w`-bit type. -/
def is_aligned (w reference dependent : Nat) : Bool :=
  decide (reference < dependent * 2 % 2 ^ w) || (dependent &&& 2 ^ (w - 1) != 0)

/-- The `while (!is_aligned ...)` loop of `align` (`src/afd_implementation.hpp`
lines 104-114), with explicit fuel.  Each iteration shifts `dependent` and `bit`
left one bit (wrapping at `w` bits, as the C casts do).  When the fuel runs out the
current state is returned; for `1 ≤ dependent ≤ reference < 2 ^ w` the loop is
proved to exit via the guard within `w - 1` iterations, so with fuel `≥ w - 1` the
fuel case is unreachable.  For `dependent = 0` the guard never becomes true and the
C loop never exits. -/
def alignF (w reference : Nat) : Nat → Nat → Nat → Nat × Nat
  | 0, dependent, bit => (bit, dependent)
  | fuel + 1, dependent, bit =>
    if is_aligned w reference dependent then (bit, dependent)
    else alignF w reference fuel (dependent * 2 % 2 ^ w) (bit * 2 % 2 ^ w)

/-- `align` from `src/afd_implementation.hpp`: starts with `bit = 1` and returns the
final `(bit, dependent)` pair (the C function returns `bit` and updates `dependent`
in place).  Fuel `w` is sufficient for every `dependent ≥ 1`. -/
def align (w reference dependent : Nat) : Nat × Nat :=
  alignF w reference w dependent 1

/-- The `while (bit)` loop of `divide_large_divisor`
(`src/afd_implementation.hpp` lines 158-167), with explicit fuel (the loop halves
`bit` each iteration, so fuel `w` suffices for any `bit < 2 ^ w`).  Subtraction is
the wrapping `w`-bit subtraction `(T)(udividend - udivisor)` of the source; the
guard `udividend >= udivisor` makes it non-wrapping in fact. -/
def dld_loop (w : Nat) : Nat → Nat → Nat → Nat → Nat → Nat
  | 0, _, _, _, res => res
  | fuel + 1, udividend, udivisor, bit, res =>
    if bit = 0 then res
    else if udivisor ≤ udividend then
      dld_loop w fuel ((udividend + (2 ^ w - udivisor)) % 2 ^ w) (udivisor / 2) (bit / 2)
        (res ||| bit)
    else dld_loop w fuel udividend (udivisor / 2) (bit / 2) res

/-- `divide_large_divisor` from `src/afd_implementation.hpp` lines 137-169, without
the `UNIT_TEST`-only threshold block: early-out `0` when `udividend < udivisor`,
align the divisor, subtract it once (wrapping subtraction as in the source), seed
`res = bit`, then run the halving loop on `bit >> 1`, `udivisor >> 1`. -/
def divide_large_divisor (w udividend udivisor : Nat) : Nat :=
  if udividend < udivisor then 0
  else
    let p := align w udividend udivisor
    dld_loop w w ((udividend + (2 ^ w - p.2)) % 2 ^ w) (p.2 / 2) (p.1 / 2) p.1

/-! ### The `fast_div` facade, from `src/avr-fast-div.h` lines 304-432.

`AFD_ZERO_DIVISOR_CHECK` is `if (divisor == 0) return 0;`; `AFD_DEFENSIVE_CHECKS`
additionally returns `0` when `dividend < divisor` and `1` when they are equal.
The `__UINT24_MAX__` 24-bit fallbacks are included (they are compiled in on the AVR
target); a cast to `__uint24` is `% 2 ^ 24`. -/

/-- `uint8_t fast_div(uint8_t, uint8_t)` (`src/avr-fast-div.h` lines 337-341). -/
def fast_div_u8_u8 (udividend udivisor : Nat) : Nat :=
  if udivisor = 0 then 0
  else udividend / udivisor

/-- `uint16_t fast_div(uint16_t, uint8_t)` (`src/avr-fast-div.h` lines 343-355):
defensive checks, then the narrowing test `udivisor > (uint8_t)(udividend >> 8)`
routing to the restoring core, else native division. -/
def fast_div_u16_u8 (udividend udivisor : Nat) : Nat :=
  if udivisor = 0 then 0
  else if udividend < udivisor then 0
  else if udividend = udivisor then 1
  else if udividend / 2 ^ 8 % 2 ^ 8 < udivisor then divide 8 udividend udivisor
  else udividend / udivisor

/-- `uint16_t fast_div(uint16_t, uint16_t)` (`src/avr-fast-div.h` lines 357-365):
defensive checks, narrow to `u16/u8` when `udivisor ≤ UINT8_MAX`, else the
large-divisor divider. -/
def fast_div_u16_u16 (udividend udivisor : Nat) : Nat :=
  if udivisor = 0 then 0
  else if udividend < udivisor then 0
  else if udividend = udivisor then 1
  else if udivisor ≤ 255 then fast_div_u16_u8 udividend (udivisor % 2 ^ 8)
  else divide_large_divisor 16 udividend udivisor

/-- `uint32_t fast_div(uint32_t, uint16_t)` (`src/avr-fast-div.h` lines 367-382):
defensive checks, narrowing test against the high word, 24-bit fallback, else
native division. -/
def fast_div_u32_u16 (udividend udivisor : Nat) : Nat :=
  if udivisor = 0 then 0
  else if udividend < udivisor then 0
  else if udividend = udivisor then 1
  else if udividend / 2 ^ 16 % 2 ^ 16 < udivisor then divide 16 udividend udivisor
  else if udividend < 2 ^ 24 - 1 then udividend % 2 ^ 24 / (udivisor % 2 ^ 24)
  else udividend / udivisor

/-- `uint32_t fast_div(uint32_t, uint8_t)` (`src/avr-fast-div.h` lines 384-386):
delegates to the `u32/u16` overload after widening the divisor. -/
def fast_div_u32_u8 (udividend udivisor : Nat) : Nat :=
  fast_div_u32_u16 udividend (udivisor % 2 ^ 16)

/-- `uint32_t fast_div(uint32_t, uint32_t)` (`src/avr-fast-div.h` lines 388-403):
defensive checks, narrow to `u32/u16` when `udivisor ≤ UINT16_MAX`, 24-bit
fallback, else the large-divisor divider. -/
def fast_div_u32_u32 (udividend udivisor : Nat) : Nat :=
  if udivisor = 0 then 0
  else if udividend < udivisor then 0
  else if udividend = udivisor then 1
  else if udivisor ≤ 65535 then fast_div_u32_u16 udividend (udivisor % 2 ^ 16)
  else if udividend < 2 ^ 24 - 1 ∧ udivisor < 2 ^ 24 - 1 then
    udividend % 2 ^ 24 / (udivisor % 2 ^ 24)
  else divide_large_divisor 32 udividend udivisor

/-- Conversion of a signed value to the unsigned type of the same width
(`(TUnsigned)svalue` in C): two's-complement reduction mod `2 ^ w`. -/
def toUnsigned (w : Nat) (x : Int) : Nat :=
  (x % (2 ^ w : Int)).toNat

/-- `safe_abs` from `src/avr-fast-div.h` lines 293-296:
`svalue < 0 ? -((TUnsigned)svalue) : ((TUnsigned)svalue)`, where unsigned negation
is `(2 ^ w - u) % 2 ^ w`. -/
def safe_abs (w : Nat) (svalue : Int) : Nat :=
  if svalue < 0 then (2 ^ w - toUnsigned w svalue) % 2 ^ w
  else toUnsigned w svalue

/-- Two's-complement reinterpretation of a `w`-bit pattern as a signed value, and
the wrap-around semantics AVR-GCC gives signed overflow: reduce mod `2 ^ w` into
`[-2^(w-1), 2^(w-1))`. -/
def wrapS (w : Nat) (x : Int) : Int :=
  (x + 2 ^ (w - 1)) % 2 ^ w - 2 ^ (w - 1)

/-- The signed `fast_div` overload (`src/avr-fast-div.h` lines 406-432), generic
over the width `w` and the unsigned facade `udiv` it dispatches to: reduce both
operands with `safe_abs`, divide unsigned, and negate the result exactly when the
operand signs differ.  The conversions of the unsigned result back to the signed
type (both the plain `return uresult` and the negation) wrap, as AVR-GCC does. -/
def fast_div_signed (w : Nat) (udiv : Nat → Nat → Nat) (dividend divisor : Int) : Int :=
  let uresult := udiv (safe_abs w dividend) (safe_abs w divisor)
  if decide (dividend < 0) = decide (divisor < 0) then wrapS w (Int.ofNat uresult)
  else wrapS w (-(wrapS w (Int.ofNat uresult)))

/-- `fast_div` for `int8_t` operands. -/
def fast_div_i8 : Int → Int → Int := fast_div_signed 8 fast_div_u8_u8

/-- `fast_div` for `int16_t` operands. -/
def fast_div_i16 : Int → Int → Int := fast_div_signed 16 fast_div_u16_u16

/-- `fast_div` for `int32_t` operands. -/
def fast_div_i32 : Int → Int → Int := fast_div_signed 32 fast_div_u32_u32

/-! ### The legacy facade, from `include/avr_fast_div.h` lines 313-330.

These overloads perform no zero-divisor check at all. -/

/-- Legacy `uint8_t fast_div(uint8_t, uint8_t)` (`include/avr_fast_div.h`
lines 313-315): native division directly, no checks.  (Division by zero is
undefined in C; Lean's `x / 0 = 0` convention stands in for the native branch and
nothing is claimed through it at a zero divisor.) -/
def legacy_fast_div_u8_u8 (udividend udivisor : Nat) : Nat :=
  udividend / udivisor

/-- Legacy `uint16_t fast_div(uint16_t, uint8_t)` (`include/avr_fast_div.h`
lines 317-323): the narrowing test `udivResultFitsInDivisor` runs first — there
is no zero-divisor check — and when it passes, the checked core is invoked
(`optimized_div_impl::divide(...) & 0x00FFU`) whatever the divisor. -/
def legacy_fast_div_u16_u8 (udividend udivisor : Nat) : Nat :=
  if udivResultFitsInDivisor 8 udividend udivisor then
    divide_checked 8 udividend udivisor &&& 255
  else udividend / udivisor

/-- Legacy `uint16_t fast_div(uint16_t, uint16_t)` (`include/avr_fast_div.h`
lines 325-330): narrows when `udivisor < UINT8_MAX` (strict, in this version),
again with no zero-divisor check. -/
def legacy_fast_div_u16_u16 (udividend udivisor : Nat) : Nat :=
  if udivisor < 255 then legacy_fast_div_u16_u8 udividend (udivisor % 2 ^ 8)
  else udividend / udivisor

/-- The shape of the working accumulator of the restoring-division core after `i`
of the `n` iterations, for dividend `D` and divisor `d`: the high `n` bits hold the
partial remainder `(D / 2^(n-i)) % d`, the low `n` bits hold the not-yet-consumed
dividend bits `D % 2^(n-i)` (shifted up by `i`) with the `i` quotient bits produced
so far, `(D / 2^(n-i)) / d`, in the bottom. -/
def invAcc (n d D i : Nat) : Nat :=
  D / 2 ^ (n - i) % d * 2 ^ n + D % 2 ^ (n - i) * 2 ^ i + D / 2 ^ (n - i) / d

/-! ## Arithmetic helpers -/

theorem lor_of_lt {b : Nat} (a k : Nat) (hb : b < 2 ^ k) :
    a * 2 ^ k ||| b = a * 2 ^ k + b := by
  rw [Nat.mul_comm a, ← Nat.mul_add_lt_is_or hb]

theorem hi_lo_div (c x y : Nat) (hc : 0 < c) (hy : y < c) : (x * c + y) / c = x := by
  rw [Nat.add_comm, Nat.add_mul_div_right _ _ hc, Nat.div_eq_of_lt hy, Nat.zero_add]

theorem hi_lo_mod (c x y : Nat) (hy : y < c) : (x * c + y) % c = y := by
  rw [Nat.add_comm, Nat.add_mul_mod_self_right, Nat.mod_eq_of_lt hy]

theorem hi_lo_lt (c x y : Nat) (hx : x < c) (hy : y < c) : x * c + y < c * c := by
  have h1 : x + 1 ≤ c := hx
  calc x * c + y < x * c + c := by omega
    _ = (x + 1) * c := by ring
    _ ≤ c * c := Nat.mul_le_mul_right c h1

theorem hi_lo_mod_sq (c x y : Nat) (hc : 0 < c) (hy : y < c) :
    (x * c + y) % (c * c) = x % c * c + y := by
  have h1 : (c * (x / c) + x % c) * c + y = x % c * c + y + x / c * (c * c) := by ring
  conv_lhs => rw [← Nat.div_add_mod x c]
  rw [h1, Nat.add_mul_mod_self_right,
    Nat.mod_eq_of_lt (hi_lo_lt c (x % c) y (Nat.mod_lt x hc) hy)]

theorem hi_lo_div_sq (c x y : Nat) (hc : 0 < c) (hy : y < c) :
    (x * c + y) / (c * c) = x / c := by
  rw [← Nat.div_div_eq_div_mul, hi_lo_div c x y hc hy]

/-! ## Correctness of the restoring-division core -/

/-- What one machine step does to an accumulator split as `high * 2^n + low`:
the new high half is the old high shifted left, absorbing the top bit of the low
half, minus the divisor when the subtraction triggers; the low half is shifted
left, gaining a `1` quotient bit exactly when the subtraction triggers. -/
theorem divide_step_spec (n r L d : Nat) (hn : 0 < n) (hr : r < 2 ^ n) (hL : L < 2 ^ n)
    (hd : d < 2 ^ n) :
    divide_step n (r * 2 ^ n + L) d =
      if d ≤ 2 * r + L / 2 ^ (n - 1) then
        (2 * r + L / 2 ^ (n - 1) - d) % 2 ^ n * 2 ^ n + (L % 2 ^ (n - 1) * 2 + 1)
      else (2 * r + L / 2 ^ (n - 1)) * 2 ^ n + L % 2 ^ (n - 1) * 2 := by
  obtain ⟨m, rfl⟩ : ∃ m, n = m + 1 := ⟨n - 1, by omega⟩
  simp only [Nat.add_sub_cancel] at *
  have hP : 0 < 2 ^ m := Nat.pos_pow_of_pos m (by omega)
  have hPn : 2 ^ (m + 1) = 2 ^ m * 2 := by rw [Nat.pow_succ]
  have h2n : 2 ^ (2 * (m + 1)) = 2 ^ (m + 1) * 2 ^ (m + 1) := by
    rw [Nat.two_mul, Nat.pow_add]
  have h2n1 : 2 ^ (2 * (m + 1) - 1) * 2 = 2 ^ (2 * (m + 1)) := by
    rw [show 2 * (m + 1) - 1 = 2 * m + 1 by omega,
      show 2 * (m + 1) = 2 * m + 1 + 1 by omega]
    conv_rhs => rw [Nat.pow_succ]
  have hb1 : L / 2 ^ m ≤ 1 := by
    have h := (Nat.div_lt_iff_lt_mul hP).2 (show L < 2 * 2 ^ m by omega)
    omega
  have hLm : L % 2 ^ m < 2 ^ m := Nat.mod_lt _ hP
  have hLeq : 2 ^ m * (L / 2 ^ m) + L % 2 ^ m = L := Nat.div_add_mod L _
  have hacc2 : (r * 2 ^ (m + 1) + L) * 2 =
      (2 * r + L / 2 ^ m) * 2 ^ (m + 1) + L % 2 ^ m * 2 := by
    calc (r * 2 ^ (m + 1) + L) * 2
        = (r * (2 ^ m * 2) + (2 ^ m * (L / 2 ^ m) + L % 2 ^ m)) * 2 := by rw [← hPn, hLeq]
      _ = (2 * r + L / 2 ^ m) * (2 ^ m * 2) + L % 2 ^ m * 2 := by ring
      _ = (2 * r + L / 2 ^ m) * 2 ^ (m + 1) + L % 2 ^ m * 2 := by rw [← hPn]
  have hS4 : 2 * r + L / 2 ^ m < 2 ^ (m + 1) * 2 := by omega
  have hy2 : L % 2 ^ m * 2 < 2 ^ (m + 1) := by omega
  have hcarry : (r * 2 ^ (m + 1) + L) / 2 ^ (2 * (m + 1) - 1) =
      (2 * r + L / 2 ^ m) / 2 ^ (m + 1) := by
    rw [← Nat.mul_div_mul_right (r * 2 ^ (m + 1) + L) (2 ^ (2 * (m + 1) - 1))
      (show 0 < 2 by omega), h2n1, hacc2, h2n,
      hi_lo_div_sq (2 ^ (m + 1)) _ _ (by positivity) hy2]
  have hshift : (r * 2 ^ (m + 1) + L) * 2 % 2 ^ (2 * (m + 1)) =
      (2 * r + L / 2 ^ m) % 2 ^ (m + 1) * 2 ^ (m + 1) + L % 2 ^ m * 2 := by
    rw [hacc2, h2n, hi_lo_mod_sq (2 ^ (m + 1)) _ _ (by positivity) hy2]
  simp only [divide_step]
  rw [hcarry, hshift]
  rw [hi_lo_div (2 ^ (m + 1)) _ _ (by positivity) hy2]
  rw [hi_lo_mod (2 ^ (m + 1)) _ _ hy2]
  set S := 2 * r + L / 2 ^ m with hSdef
  have hcond : (S / 2 ^ (m + 1) = 1 ∨ d ≤ S % 2 ^ (m + 1)) ↔ d ≤ S := by
    rcases Nat.lt_or_ge S (2 ^ (m + 1)) with hlt | hge
    · rw [Nat.div_eq_of_lt hlt, Nat.mod_eq_of_lt hlt]
      omega
    · have hdiv : S / 2 ^ (m + 1) = 1 :=
        Nat.div_eq_of_lt_le (by omega) (by omega)
      constructor
      · intro _; omega
      · intro _; exact Or.inl hdiv
  have hmod2 : S % 2 ^ (m + 1) = S - 2 ^ (m + 1) * (S / 2 ^ (m + 1)) := by
    have h := Nat.div_add_mod S (2 ^ (m + 1))
    omega
  by_cases hdle : d ≤ S
  · rw [if_pos (hcond.2 hdle), if_pos hdle]
    have hsub : (S % 2 ^ (m + 1) + (2 ^ (m + 1) - d)) % 2 ^ (m + 1) = (S - d) % 2 ^ (m + 1) := by
      rcases Nat.lt_or_ge S (2 ^ (m + 1)) with hlt | hge
      · rw [Nat.mod_eq_of_lt hlt]
        have h1 : S + (2 ^ (m + 1) - d) = S - d + 2 ^ (m + 1) := by omega
        rw [h1, Nat.add_mod_right]
      · have hdiv : S / 2 ^ (m + 1) = 1 :=
          Nat.div_eq_of_lt_le (by omega) (by omega)
        rw [hmod2, hdiv]
        have h1 : S - 2 ^ (m + 1) * 1 + (2 ^ (m + 1) - d) = S - d := by omega
        rw [h1]
    have hlor : L % 2 ^ m * 2 ||| 1 = L % 2 ^ m * 2 + 1 := by
      have h := lor_of_lt (L % 2 ^ m) 1 (show 1 < 2 ^ 1 by omega)
      simpa [Nat.pow_one] using h
    rw [hsub, hlor]
  · rw [if_neg (fun h => hdle (hcond.1 h)), if_neg hdle]
    have hlt : S < 2 ^ (m + 1) := by omega
    rw [Nat.mod_eq_of_lt hlt]

theorem lor_one_of_even (x : Nat) (hx : x % 2 = 0) : x ||| 1 = x + 1 := by
  have h := lor_of_lt (x / 2) 1 (show 1 < 2 ^ 1 by omega)
  rw [Nat.pow_one] at h
  have h2 : x / 2 * 2 = x := by omega
  rw [h2] at h
  exact h

/-- One invariant-preservation step of the core: if the accumulator has the
invariant shape after `i` iterations, it has it after `i + 1`. -/
theorem invAcc_succ (n d D i : Nat) (hi : i < n) (hd : 0 < d) (hdn : d < 2 ^ n)
    (hD : D < d * 2 ^ n) :
    divide_step n (invAcc n d D i) d = invAcc n d D (i + 1) := by
  obtain ⟨k, hk⟩ : ∃ k, n - i = k + 1 := ⟨n - i - 1, by omega⟩
  have hk2 : n - (i + 1) = k := by omega
  have hkP : 0 < 2 ^ k := Nat.pos_pow_of_pos k (by omega)
  have hiP : 0 < 2 ^ i := Nat.pos_pow_of_pos i (by omega)
  have hniP : 0 < 2 ^ (n - i) := Nat.pos_pow_of_pos _ (by omega)
  have hsplit_n : 2 ^ n = 2 ^ (n - i) * 2 ^ i := by
    rw [← Nat.pow_add]; congr 1; omega
  have hsplit_ni : 2 ^ (n - i) = 2 ^ k * 2 := by
    rw [hk, Nat.pow_succ]
  have hsplit_n1 : 2 ^ (n - 1) = 2 ^ i * 2 ^ k := by
    rw [← Nat.pow_add]; congr 1; omega
  have hm_lt : D % 2 ^ (n - i) < 2 ^ (n - i) := Nat.mod_lt _ hniP
  have hr_lt : D / 2 ^ (n - i) % d < d := Nat.mod_lt _ hd
  have hq_lt : D / 2 ^ (n - i) / d < 2 ^ i := by
    rw [Nat.div_div_eq_div_mul, Nat.div_lt_iff_lt_mul (by positivity)]
    calc D < d * 2 ^ n := hD
      _ = 2 ^ i * (2 ^ (n - i) * d) := by rw [hsplit_n]; ring
  have hinv : invAcc n d D i =
      D / 2 ^ (n - i) % d * 2 ^ n + (D % 2 ^ (n - i) * 2 ^ i + D / 2 ^ (n - i) / d) := by
    simp only [invAcc]; ring
  have hL_lt : D % 2 ^ (n - i) * 2 ^ i + D / 2 ^ (n - i) / d < 2 ^ n := by
    calc D % 2 ^ (n - i) * 2 ^ i + D / 2 ^ (n - i) / d
        < D % 2 ^ (n - i) * 2 ^ i + 2 ^ i := by omega
      _ = (D % 2 ^ (n - i) + 1) * 2 ^ i := by ring
      _ ≤ 2 ^ (n - i) * 2 ^ i := Nat.mul_le_mul_right _ (by omega)
      _ = 2 ^ n := hsplit_n.symm
  have hr_ltn : D / 2 ^ (n - i) % d < 2 ^ n := lt_of_lt_of_le hr_lt (le_of_lt hdn)
  have hb : (D % 2 ^ (n - i) * 2 ^ i + D / 2 ^ (n - i) / d) / 2 ^ (n - 1) =
      D % 2 ^ (n - i) / 2 ^ k := by
    rw [hsplit_n1, ← Nat.div_div_eq_div_mul, hi_lo_div (2 ^ i) _ _ hiP hq_lt]
  have hb1 : D % 2 ^ (n - i) / 2 ^ k ≤ 1 := by
    have h := (Nat.div_lt_iff_lt_mul hkP).2 (show D % 2 ^ (n - i) < 2 * 2 ^ k by omega)
    omega
  have hmk : D % 2 ^ (n - i) % 2 ^ k < 2 ^ k := Nat.mod_lt _ hkP
  have hz_lt : D % 2 ^ (n - i) % 2 ^ k * 2 ^ i + D / 2 ^ (n - i) / d < 2 ^ i * 2 ^ k := by
    calc D % 2 ^ (n - i) % 2 ^ k * 2 ^ i + D / 2 ^ (n - i) / d
        < D % 2 ^ (n - i) % 2 ^ k * 2 ^ i + 2 ^ i := by omega
      _ = (D % 2 ^ (n - i) % 2 ^ k + 1) * 2 ^ i := by ring
      _ ≤ 2 ^ k * 2 ^ i := Nat.mul_le_mul_right _ (by omega)
      _ = 2 ^ i * 2 ^ k := by ring
  have hmod : (D % 2 ^ (n - i) * 2 ^ i + D / 2 ^ (n - i) / d) % 2 ^ (n - 1) =
      D % 2 ^ (n - i) % 2 ^ k * 2 ^ i + D / 2 ^ (n - i) / d := by
    have hdecomp : D % 2 ^ (n - i) * 2 ^ i + D / 2 ^ (n - i) / d =
        D % 2 ^ (n - i) / 2 ^ k * 2 ^ (n - 1) +
          (D % 2 ^ (n - i) % 2 ^ k * 2 ^ i + D / 2 ^ (n - i) / d) := by
      have h2 : 2 ^ k * (D % 2 ^ (n - i) / 2 ^ k) + D % 2 ^ (n - i) % 2 ^ k =
          D % 2 ^ (n - i) := Nat.div_add_mod _ _
      calc D % 2 ^ (n - i) * 2 ^ i + D / 2 ^ (n - i) / d
          = (2 ^ k * (D % 2 ^ (n - i) / 2 ^ k) + D % 2 ^ (n - i) % 2 ^ k) * 2 ^ i +
              D / 2 ^ (n - i) / d := by rw [h2]
        _ = D % 2 ^ (n - i) / 2 ^ k * (2 ^ i * 2 ^ k) +
              (D % 2 ^ (n - i) % 2 ^ k * 2 ^ i + D / 2 ^ (n - i) / d) := by ring
        _ = _ := by rw [← hsplit_n1]
    rw [hdecomp, hi_lo_mod _ _ _ (by rw [hsplit_n1]; exact hz_lt)]
  have hDdecomp : D = (2 * (D / 2 ^ (n - i)) + D % 2 ^ (n - i) / 2 ^ k) * 2 ^ k +
      D % 2 ^ (n - i) % 2 ^ k := by
    have h1 : 2 ^ (n - i) * (D / 2 ^ (n - i)) + D % 2 ^ (n - i) = D := Nat.div_add_mod _ _
    have h2 : 2 ^ k * (D % 2 ^ (n - i) / 2 ^ k) + D % 2 ^ (n - i) % 2 ^ k =
        D % 2 ^ (n - i) := Nat.div_add_mod _ _
    calc D = 2 ^ (n - i) * (D / 2 ^ (n - i)) + D % 2 ^ (n - i) := h1.symm
      _ = 2 ^ k * 2 * (D / 2 ^ (n - i)) +
          (2 ^ k * (D % 2 ^ (n - i) / 2 ^ k) + D % 2 ^ (n - i) % 2 ^ k) := by
            rw [← hsplit_ni, h2]
      _ = (2 * (D / 2 ^ (n - i)) + D % 2 ^ (n - i) / 2 ^ k) * 2 ^ k +
          D % 2 ^ (n - i) % 2 ^ k := by ring
  have hP' : D / 2 ^ k = 2 * (D / 2 ^ (n - i)) + D % 2 ^ (n - i) / 2 ^ k := by
    conv_lhs => rw [hDdecomp]
    rw [hi_lo_div _ _ _ hkP hmk]
  have hm' : D % 2 ^ k = D % 2 ^ (n - i) % 2 ^ k :=
    (Nat.mod_mod_of_dvd D ⟨2, hsplit_ni⟩).symm
  have hPd : D / 2 ^ k = d * (2 * (D / 2 ^ (n - i) / d)) +
      (2 * (D / 2 ^ (n - i) % d) + D % 2 ^ (n - i) / 2 ^ k) := by
    have h3 : d * (D / 2 ^ (n - i) / d) + D / 2 ^ (n - i) % d =
        D / 2 ^ (n - i) := Nat.div_add_mod _ _
    calc D / 2 ^ k = 2 * (D / 2 ^ (n - i)) + D % 2 ^ (n - i) / 2 ^ k := hP'
      _ = 2 * (d * (D / 2 ^ (n - i) / d) + D / 2 ^ (n - i) % d) +
          D % 2 ^ (n - i) / 2 ^ k := by rw [h3]
      _ = _ := by ring
  have htarget : invAcc n d D (i + 1) =
      D / 2 ^ k % d * 2 ^ n + D % 2 ^ k * 2 ^ (i + 1) + D / 2 ^ k / d := by
    simp only [invAcc, hk2]
  rw [hinv, divide_step_spec n _ _ d (by omega) hr_ltn hL_lt hdn, hb, hmod, htarget, hm']
  by_cases hcase : d ≤ 2 * (D / 2 ^ (n - i) % d) + D % 2 ^ (n - i) / 2 ^ k
  · rw [if_pos hcase]
    have hPmod : D / 2 ^ k % d =
        2 * (D / 2 ^ (n - i) % d) + D % 2 ^ (n - i) / 2 ^ k - d := by
      rw [hPd, Nat.mul_add_mod, Nat.mod_eq_sub_mod hcase, Nat.mod_eq_of_lt (by omega)]
    have hSdiv : (2 * (D / 2 ^ (n - i) % d) + D % 2 ^ (n - i) / 2 ^ k) / d = 1 :=
      Nat.div_eq_of_lt_le (by omega) (by omega)
    have hPdiv : D / 2 ^ k / d = 2 * (D / 2 ^ (n - i) / d) + 1 := by
      rw [hPd, Nat.mul_add_div hd, hSdiv]
    rw [hPmod, hPdiv, Nat.mod_eq_of_lt (by omega), Nat.pow_succ]
    ring
  · rw [if_neg hcase]
    have hPmod : D / 2 ^ k % d =
        2 * (D / 2 ^ (n - i) % d) + D % 2 ^ (n - i) / 2 ^ k := by
      rw [hPd, Nat.mul_add_mod, Nat.mod_eq_of_lt (by omega)]
    have hSdiv : (2 * (D / 2 ^ (n - i) % d) + D % 2 ^ (n - i) / 2 ^ k) / d = 0 :=
      Nat.div_eq_of_lt (by omega)
    have hPdiv : D / 2 ^ k / d = 2 * (D / 2 ^ (n - i) / d) := by
      rw [hPd, Nat.mul_add_div hd, hSdiv, Nat.add_zero]
    rw [hPmod, hPdiv, Nat.pow_succ]
    ring

/-- Running the remaining `k` iterations from invariant position `i` lands on the
invariant position `n`. -/
theorem divide_loop_inv (n d D : Nat) (hd : 0 < d) (hdn : d < 2 ^ n)
    (hD : D < d * 2 ^ n) :
    ∀ k i, i + k = n → divide_loop n d k (invAcc n d D i) = invAcc n d D n := by
  intro k
  induction k with
  | zero =>
    intro i h
    simp only [divide_loop]
    rw [show i = n by omega]
  | succ k ih =>
    intro i h
    simp only [divide_loop]
    rw [invAcc_succ n d D i (by omega) hd hdn hD]
    exact ih (i + 1) (by omega)

/-- Master lemma for the core: after its `n` iterations, the accumulator holds the
remainder in the high half and the quotient in the low half. -/
theorem divide_loop_eq (n d D : Nat) (hn : 0 < n) (hd : 0 < d) (hdn : d < 2 ^ n)
    (hD : D < d * 2 ^ n) :
    divide_loop n d n D = D % d * 2 ^ n + D / d := by
  have h1 : D / 2 ^ n < d := (Nat.div_lt_iff_lt_mul (by positivity)).2
    (by calc D < d * 2 ^ n := hD
          _ = d * 2 ^ n := rfl)
  have h0 : invAcc n d D 0 = D := by
    simp only [invAcc, Nat.sub_zero, Nat.pow_zero, Nat.mul_one]
    rw [Nat.mod_eq_of_lt h1, Nat.div_eq_of_lt h1, Nat.add_zero, Nat.mul_comm]
    exact Nat.div_add_mod D (2 ^ n)
  calc divide_loop n d n D = divide_loop n d n (invAcc n d D 0) := by rw [h0]
    _ = invAcc n d D n := divide_loop_inv n d D hd hdn hD n 0 (by omega)
    _ = D % d * 2 ^ n + D / d := by
        simp only [invAcc, Nat.sub_self, Nat.pow_zero, Nat.div_one, Nat.mod_one,
          Nat.zero_mul, Nat.add_zero]

/-- Functional correctness of the narrowing core under the narrowing precondition:
the returned value is the true quotient and the high half of the final accumulator
is the true remainder. -/
theorem divide_correct (n D d : Nat) (hn : 0 < n) (hd : 0 < d) (hdn : d < 2 ^ n)
    (hfit : D / d < 2 ^ n) :
    divide n D d = D / d ∧ divide_loop n d n D / 2 ^ n = D % d := by
  have hD : D < d * 2 ^ n := by
    rw [Nat.div_lt_iff_lt_mul hd] at hfit
    calc D < 2 ^ n * d := hfit
      _ = d * 2 ^ n := Nat.mul_comm _ _
  have hloop := divide_loop_eq n d D hn hd hdn hD
  have hq : D / d < 2 ^ n := by
    rw [Nat.div_lt_iff_lt_mul hd]
    calc D < d * 2 ^ n := hD
      _ = 2 ^ n * d := Nat.mul_comm _ _
  constructor
  · unfold divide
    rw [hloop, hi_lo_mod _ _ _ hq]
  · rw [hloop, hi_lo_div _ _ _ (by positivity) hq]

/-- With a zero divisor, the comparison in a step always triggers, so the step is
just "shift left and set the low bit". -/
theorem divide_step_zero (n acc : Nat) (hn : 0 < n) (hacc : acc < 2 ^ (2 * n)) :
    divide_step n acc 0 = acc * 2 % 2 ^ (2 * n) + 1 := by
  have h2n : 2 ^ (2 * n) = 2 ^ n * 2 ^ n := by
    rw [Nat.two_mul, Nat.pow_add]
  have hsh : acc * 2 % 2 ^ (2 * n) < 2 ^ (2 * n) := Nat.mod_lt _ (by positivity)
  have hrem : acc * 2 % 2 ^ (2 * n) / 2 ^ n < 2 ^ n := by
    rw [Nat.div_lt_iff_lt_mul (by positivity), ← h2n]
    exact hsh
  have heven : acc * 2 % 2 ^ (2 * n) % 2 ^ n % 2 = 0 := by
    rw [Nat.mod_mod_of_dvd _ (dvd_pow_self 2 (by omega : n ≠ 0)),
      Nat.mod_mod_of_dvd _ (dvd_pow_self 2 (by omega : 2 * n ≠ 0)),
      Nat.mul_mod_left]
  simp only [divide_step]
  rw [if_pos (Or.inr (Nat.zero_le _)), Nat.sub_zero, Nat.add_mod_right,
    Nat.mod_eq_of_lt hrem, lor_one_of_even _ heven]
  calc acc * 2 % 2 ^ (2 * n) / 2 ^ n * 2 ^ n + (acc * 2 % 2 ^ (2 * n) % 2 ^ n + 1)
      = 2 ^ n * (acc * 2 % 2 ^ (2 * n) / 2 ^ n) + acc * 2 % 2 ^ (2 * n) % 2 ^ n + 1 := by
        ring
    _ = acc * 2 % 2 ^ (2 * n) + 1 := by rw [Nat.div_add_mod]

/-- Feeding `divisor = 0` through the `k` remaining iterations of the bit loop from
position `i`: every quotient bit comes out `1` and the shifted-out dividend bits
accumulate unchanged. -/
theorem divide_loop_zero_inv (n D : Nat) (hn : 0 < n) (hD : D < 2 ^ (2 * n)) :
    ∀ k i, i + k = n →
      divide_loop n 0 k (D % 2 ^ (2 * n - i) * 2 ^ i + (2 ^ i - 1)) =
        D % 2 ^ (2 * n - n) * 2 ^ n + (2 ^ n - 1) := by
  intro k
  induction k with
  | zero =>
    intro i h
    simp only [divide_loop]
    rw [show i = n by omega]
  | succ k ih =>
    intro i h
    have hiP : 0 < 2 ^ i := Nat.pos_pow_of_pos i (by omega)
    have hj : 0 < 2 * n - i - 1 := by omega
    have hjP : 0 < 2 ^ (2 * n - i - 1) := Nat.pos_pow_of_pos _ (by omega)
    have hsplit : 2 ^ (2 * n - i) = 2 ^ (2 * n - i - 1) * 2 := by
      rw [← Nat.pow_succ]; congr 1; omega
    have hsplit2 : 2 ^ (2 * n - i - 1) * 2 ^ (i + 1) = 2 ^ (2 * n) := by
      rw [← Nat.pow_add]; congr 1; omega
    have hM : D % 2 ^ (2 * n - i) < 2 ^ (2 * n - i) := Nat.mod_lt _ (by positivity)
    have hacc_lt : D % 2 ^ (2 * n - i) * 2 ^ i + (2 ^ i - 1) < 2 ^ (2 * n) := by
      calc D % 2 ^ (2 * n - i) * 2 ^ i + (2 ^ i - 1)
          < (D % 2 ^ (2 * n - i) + 1) * 2 ^ i := by ring_nf; omega
        _ ≤ 2 ^ (2 * n - i) * 2 ^ i := Nat.mul_le_mul_right _ (by omega)
        _ = 2 ^ (2 * n) := by rw [← Nat.pow_add]; congr 1; omega
    have hb1 : D % 2 ^ (2 * n - i) / 2 ^ (2 * n - i - 1) ≤ 1 := by
      have h := (Nat.div_lt_iff_lt_mul hjP).2
        (show D % 2 ^ (2 * n - i) < 2 * 2 ^ (2 * n - i - 1) by omega)
      omega
    have hmk : D % 2 ^ (2 * n - i) % 2 ^ (2 * n - i - 1) < 2 ^ (2 * n - i - 1) :=
      Nat.mod_lt _ hjP
    have hm' : D % 2 ^ (2 * n - i) % 2 ^ (2 * n - i - 1) = D % 2 ^ (2 * n - i - 1) :=
      Nat.mod_mod_of_dvd D ⟨2, hsplit⟩
    have hshift : (D % 2 ^ (2 * n - i) * 2 ^ i + (2 ^ i - 1)) * 2 % 2 ^ (2 * n) =
        D % 2 ^ (2 * n - i - 1) * 2 ^ (i + 1) + (2 ^ (i + 1) - 2) := by
      have h2 : 2 ^ (2 * n - i - 1) * (D % 2 ^ (2 * n - i) / 2 ^ (2 * n - i - 1)) +
          D % 2 ^ (2 * n - i) % 2 ^ (2 * n - i - 1) = D % 2 ^ (2 * n - i) :=
        Nat.div_add_mod _ _
      have key : D % 2 ^ (2 * n - i) / 2 ^ (2 * n - i - 1) * 2 ^ (2 * n) +
          D % 2 ^ (2 * n - i) % 2 ^ (2 * n - i - 1) * 2 ^ (i + 1) =
          D % 2 ^ (2 * n - i) * 2 ^ (i + 1) := by
        calc D % 2 ^ (2 * n - i) / 2 ^ (2 * n - i - 1) * 2 ^ (2 * n) +
            D % 2 ^ (2 * n - i) % 2 ^ (2 * n - i - 1) * 2 ^ (i + 1)
            = (2 ^ (2 * n - i - 1) * (D % 2 ^ (2 * n - i) / 2 ^ (2 * n - i - 1)) +
                D % 2 ^ (2 * n - i) % 2 ^ (2 * n - i - 1)) * 2 ^ (i + 1) := by
              rw [← hsplit2]; ring
          _ = D % 2 ^ (2 * n - i) * 2 ^ (i + 1) := by rw [h2]
      have hm2 : D % 2 ^ (2 * n - i) % 2 ^ (2 * n - i - 1) * 2 ^ (i + 1) =
          D % 2 ^ (2 * n - i - 1) * 2 ^ (i + 1) := by rw [hm']
      have hMM : D % 2 ^ (2 * n - i) * 2 ^ (i + 1) =
          D % 2 ^ (2 * n - i) * 2 ^ i * 2 := by rw [Nat.pow_succ]; ring
      have hpow1 : 2 ^ (i + 1) = 2 ^ i * 2 := Nat.pow_succ 2 i
      have hdecomp : (D % 2 ^ (2 * n - i) * 2 ^ i + (2 ^ i - 1)) * 2 =
          (D % 2 ^ (2 * n - i - 1) * 2 ^ (i + 1) + (2 ^ (i + 1) - 2)) +
            D % 2 ^ (2 * n - i) / 2 ^ (2 * n - i - 1) * 2 ^ (2 * n) := by
        omega
      rw [hdecomp, Nat.add_mul_mod_self_right, Nat.mod_eq_of_lt]
      calc D % 2 ^ (2 * n - i - 1) * 2 ^ (i + 1) + (2 ^ (i + 1) - 2)
          < (D % 2 ^ (2 * n - i - 1) + 1) * 2 ^ (i + 1) := by ring_nf; omega
        _ ≤ 2 ^ (2 * n - i - 1) * 2 ^ (i + 1) := Nat.mul_le_mul_right _ (by omega)
        _ = 2 ^ (2 * n) := hsplit2
    simp only [divide_loop]
    rw [divide_step_zero n _ hn hacc_lt, hshift]
    have hfix : D % 2 ^ (2 * n - i - 1) * 2 ^ (i + 1) + (2 ^ (i + 1) - 2) + 1 =
        D % 2 ^ (2 * n - (i + 1)) * 2 ^ (i + 1) + (2 ^ (i + 1) - 1) := by
      have : 2 * n - i - 1 = 2 * n - (i + 1) := by omega
      rw [this]
      have h2 : 2 ≤ 2 ^ (i + 1) := by
        calc 2 = 2 ^ 1 := rfl
          _ ≤ 2 ^ (i + 1) := Nat.pow_le_pow_right (by omega) (by omega)
      omega
    rw [hfix]
    exact ih (i + 1) (by omega)

/-- Behaviour of the (checkless) core on a zero divisor: the quotient half comes
out as the all-ones maximum and the remainder half as the low `n` bits of the
dividend. -/
theorem divide_loop_zero_eq (n D : Nat) (hn : 0 < n) (hD : D < 2 ^ (2 * n)) :
    divide_loop n 0 n D = D % 2 ^ n * 2 ^ n + (2 ^ n - 1) := by
  have h0 : D % 2 ^ (2 * n - 0) * 2 ^ 0 + (2 ^ 0 - 1) = D := by
    simp only [Nat.sub_zero, Nat.pow_zero, Nat.mul_one]
    rw [Nat.mod_eq_of_lt hD]
    omega
  have h := divide_loop_zero_inv n D hn hD n 0 (by omega)
  rw [h0] at h
  rw [h, show 2 * n - n = n by omega]

/-! ## Correctness of the alignment divider -/

/-- The top-bit test `dependent & max_bit` of `is_aligned`, read arithmetically. -/
theorem and_top_bit (w dep : Nat) (hw : 0 < w) (hdep : dep < 2 ^ w) :
    (dep &&& 2 ^ (w - 1) != 0) = decide (2 ^ (w - 1) ≤ dep) := by
  have hsplit : 2 ^ w = 2 ^ (w - 1) * 2 := by
    rw [← Nat.pow_succ]; congr 1; omega
  have h2 : dep / 2 ^ (w - 1) < 2 :=
    (Nat.div_lt_iff_lt_mul (by positivity)).2 (by omega)
  rw [Nat.and_two_pow, Nat.testBit_to_div_mod, Nat.mod_eq_of_lt h2]
  by_cases hc : 2 ^ (w - 1) ≤ dep
  · have hone : dep / 2 ^ (w - 1) = 1 := Nat.div_eq_of_lt_le (by omega) (by omega)
    have hpos : 2 ^ (w - 1) ≠ 0 := by positivity
    simp [hone, hc, hpos]
  · have hzero : dep / 2 ^ (w - 1) = 0 := Nat.div_eq_of_lt (by omega)
    simp [hzero, hc]

theorem is_aligned_zero_dep (w ref : Nat) : is_aligned w ref 0 = false := by
  simp [is_aligned]

/-- The alignment guard holds as soon as doubling the dependent would exceed the
reference. -/
theorem is_aligned_of_double_gt (w ref dep : Nat) (hw : 0 < w) (hdep : dep < 2 ^ w)
    (h : ref < dep * 2) : is_aligned w ref dep = true := by
  have hsplit : 2 ^ w = 2 ^ (w - 1) * 2 := by
    rw [← Nat.pow_succ]; congr 1; omega
  unfold is_aligned
  by_cases hc : 2 ^ (w - 1) ≤ dep
  · rw [and_top_bit w dep hw hdep]
    simp [hc]
  · have hdd : dep * 2 < 2 ^ w := by omega
    rw [Nat.mod_eq_of_lt hdd]
    simp [h]

/-- Conversely, at guard exit the doubled dependent exceeds the reference. -/
theorem lt_double_of_is_aligned (w ref dep : Nat) (hw : 0 < w) (hdep : dep < 2 ^ w)
    (hrefw : ref < 2 ^ w) (h : is_aligned w ref dep = true) : ref < dep * 2 := by
  have hsplit : 2 ^ w = 2 ^ (w - 1) * 2 := by
    rw [← Nat.pow_succ]; congr 1; omega
  unfold is_aligned at h
  rw [and_top_bit w dep hw hdep] at h
  rcases Bool.or_eq_true_iff.1 h with h1 | h2
  · have hle := Nat.mod_le (dep * 2) (2 ^ w)
    have := of_decide_eq_true h1
    omega
  · have := of_decide_eq_true h2
    omega

/-- While the guard fails, the shift is exact: the dependent stays below the top
bit and its double still does not exceed the reference. -/
theorem not_aligned_facts (w ref dep : Nat) (hw : 0 < w) (hdep : dep < 2 ^ w)
    (h : is_aligned w ref dep = false) : dep * 2 ≤ ref ∧ dep < 2 ^ (w - 1) := by
  have hsplit : 2 ^ w = 2 ^ (w - 1) * 2 := by
    rw [← Nat.pow_succ]; congr 1; omega
  unfold is_aligned at h
  rw [and_top_bit w dep hw hdep] at h
  rcases Bool.or_eq_false_iff.1 h with ⟨h1, h2⟩
  have hc2 : ¬ 2 ^ (w - 1) ≤ dep := of_decide_eq_false h2
  have hdd : dep * 2 < 2 ^ w := by omega
  rw [Nat.mod_eq_of_lt hdd] at h1
  have hc1 : ¬ ref < dep * 2 := of_decide_eq_false h1
  omega

/-- The `align` while loop exits via its guard within `fuel` iterations whenever
`fuel` is large enough, and at exit both `bit` and `dependent` have been shifted
left the same number `j` of places with no bits lost, with the exit bounds
`dep * 2^j ≤ ref < dep * 2^(j+1)`. -/
theorem alignF_spec (w ref : Nat) (hw : 0 < w) (hrefw : ref < 2 ^ w) :
    ∀ fuel dep bit, 0 < bit → bit ≤ dep → dep ≤ ref → ref < dep * 2 ^ fuel * 2 →
      ∃ j, j ≤ fuel ∧ alignF w ref fuel dep bit = (bit * 2 ^ j, dep * 2 ^ j) ∧
        dep * 2 ^ j ≤ ref ∧ ref < dep * 2 ^ j * 2 ∧
        is_aligned w ref (dep * 2 ^ j) = true := by
  intro fuel
  induction fuel with
  | zero =>
    intro dep bit hbit hbd hdr href
    have href' : ref < dep * 2 := by
      calc ref < dep * 2 ^ 0 * 2 := href
        _ = dep * 2 := by ring
    refine ⟨0, Nat.le_refl 0, by simp [alignF], by simpa using hdr, by simpa using href,
      by simpa using is_aligned_of_double_gt w ref dep hw (by omega) href'⟩
  | succ fuel ih =>
    intro dep bit hbit hbd hdr href
    by_cases hal : is_aligned w ref dep = true
    · have hexit := lt_double_of_is_aligned w ref dep hw (by omega) hrefw hal
      refine ⟨0, by omega, ?_, by simpa using hdr, by simpa using hexit, by simpa using hal⟩
      simp [alignF, hal]
    · have hfacts := not_aligned_facts w ref dep hw (by omega)
        (Bool.not_eq_true _ ▸ hal)
      have hdd : dep * 2 < 2 ^ w := by
        have hsplit : 2 ^ w = 2 ^ (w - 1) * 2 := by
          rw [← Nat.pow_succ]; congr 1; omega
        omega
      have hbb : bit * 2 < 2 ^ w := by omega
      have hstep : alignF w ref (fuel + 1) dep bit =
          alignF w ref fuel (dep * 2) (bit * 2) := by
        simp only [alignF, hal, Bool.false_eq_true, if_false]
        rw [Nat.mod_eq_of_lt hdd, Nat.mod_eq_of_lt hbb]
      have href2 : ref < dep * 2 * 2 ^ fuel * 2 := by
        calc ref < dep * 2 ^ (fuel + 1) * 2 := href
          _ = dep * 2 * 2 ^ fuel * 2 := by rw [Nat.pow_succ]; ring
      obtain ⟨j, hj, heq, hle, hlt, hal2⟩ :=
        ih (dep * 2) (bit * 2) (by omega) (by omega) hfacts.1 href2
      refine ⟨j + 1, by omega, ?_, ?_, ?_, ?_⟩
      · rw [hstep, heq]
        congr 1 <;> (rw [Nat.pow_succ]; ring)
      · calc dep * 2 ^ (j + 1) = dep * 2 * 2 ^ j := by rw [Nat.pow_succ]; ring
          _ ≤ ref := hle
      · calc ref < dep * 2 * 2 ^ j * 2 := hlt
          _ = dep * 2 ^ (j + 1) * 2 := by rw [Nat.pow_succ]; ring
      · have he : dep * 2 * 2 ^ j = dep * 2 ^ (j + 1) := by rw [Nat.pow_succ]; ring
        rw [← he]
        exact hal2

/-- With `dependent = 0` the guard of `align` is never satisfied and the state
never leaves `dependent = 0`: the C loop does not terminate. -/
theorem alignF_zero_dep (w ref : Nat) :
    ∀ fuel bit, (alignF w ref fuel 0 bit).2 = 0 := by
  intro fuel
  induction fuel with
  | zero => intro bit; simp [alignF]
  | succ fuel ih =>
    intro bit
    simp only [alignF, is_aligned_zero_dep, Bool.false_eq_true, if_false,
      Nat.zero_mul, Nat.zero_mod]
    exact ih _

/-- Invariant of the `while (bit)` loop of `divide_large_divisor`: with
`bit = 2^m`, `udivisor = d * 2^m`, `udividend < d * 2^(m+1)` and the quotient bits
accumulated so far in `res` (all above position `m`), the loop adds exactly the
remaining quotient `udividend / d` into `res`. -/
theorem dld_loop_spec (w d : Nat) (hd : 0 < d) :
    ∀ m fuel cur res, m + 2 ≤ fuel → cur < d * 2 ^ m * 2 → cur < 2 ^ w →
      res % 2 ^ (m + 1) = 0 →
      dld_loop w fuel cur (d * 2 ^ m) (2 ^ m) res = res + cur / d := by
  intro m
  induction m with
  | zero =>
    intro fuel cur res hfuel hcur hcurw hres
    obtain ⟨f, rfl⟩ : ∃ f, fuel = f + 2 := ⟨fuel - 2, by omega⟩
    simp only [Nat.pow_zero, Nat.mul_one] at hcur ⊢
    by_cases hc : d ≤ cur
    · have hsub : (cur + (2 ^ w - d)) % 2 ^ w = cur - d := by
        have h1 : cur + (2 ^ w - d) = cur - d + 2 ^ w := by omega
        rw [h1, Nat.add_mod_right, Nat.mod_eq_of_lt (by omega)]
      have hlor : res ||| 1 = res + 1 := lor_one_of_even res (by omega)
      have hdiv : cur / d = 1 := Nat.div_eq_of_lt_le (by omega) (by omega)
      simp only [dld_loop, if_pos hc, Nat.one_ne_zero, if_false, Nat.div_self,
        hsub, hlor, hdiv]
      norm_num
    · have hdiv : cur / d = 0 := Nat.div_eq_of_lt (by omega)
      simp only [dld_loop, if_neg hc, Nat.one_ne_zero, if_false, hdiv]
      norm_num
  | succ m ih =>
    intro fuel cur res hfuel hcur hcurw hres
    obtain ⟨f, rfl⟩ : ∃ f, fuel = f + 1 := ⟨fuel - 1, by omega⟩
    have hbitpos : (2 : Nat) ^ (m + 1) ≠ 0 := by positivity
    have hhalf_bit : 2 ^ (m + 1) / 2 = 2 ^ m := by
      rw [Nat.pow_succ, Nat.mul_div_cancel _ (by omega)]
    have hhalf_div : d * 2 ^ (m + 1) / 2 = d * 2 ^ m := by
      rw [Nat.pow_succ, ← Nat.mul_assoc, Nat.mul_div_cancel _ (by omega)]
    have hexp : d * 2 ^ (m + 1) = d * 2 ^ m * 2 := by rw [Nat.pow_succ]; ring
    by_cases hc : d * 2 ^ (m + 1) ≤ cur
    · have hsub : (cur + (2 ^ w - d * 2 ^ (m + 1))) % 2 ^ w = cur - d * 2 ^ (m + 1) := by
        have hdw : d * 2 ^ (m + 1) ≤ 2 ^ w := by omega
        have h1 : cur + (2 ^ w - d * 2 ^ (m + 1)) = cur - d * 2 ^ (m + 1) + 2 ^ w := by
          omega
        rw [h1, Nat.add_mod_right, Nat.mod_eq_of_lt (by omega)]
      have hlor : res ||| 2 ^ (m + 1) = res + 2 ^ (m + 1) := by
        have hdvd : 2 ^ (m + 2) ∣ res := Nat.dvd_of_mod_eq_zero hres
        have h1 : res / 2 ^ (m + 2) * 2 ^ (m + 2) = res := Nat.div_mul_cancel hdvd
        have h2 : (2 : Nat) ^ (m + 1) < 2 ^ (m + 2) :=
          Nat.pow_lt_pow_right (by omega) (by omega)
        calc res ||| 2 ^ (m + 1)
            = res / 2 ^ (m + 2) * 2 ^ (m + 2) ||| 2 ^ (m + 1) := by rw [h1]
          _ = res / 2 ^ (m + 2) * 2 ^ (m + 2) + 2 ^ (m + 1) := lor_of_lt _ _ h2
          _ = res + 2 ^ (m + 1) := by rw [h1]
      simp only [dld_loop, if_pos hc, hbitpos, if_false, hsub, hlor, hhalf_bit, hhalf_div]
      have hcur2 : cur - d * 2 ^ (m + 1) < d * 2 ^ m * 2 := by
        rw [← hexp]; omega
      have hres2 : (res + 2 ^ (m + 1)) % 2 ^ (m + 1) = 0 := by
        rw [Nat.add_mod_right]
        have hdvd : (2 : Nat) ^ (m + 1) ∣ 2 ^ (m + 2) := pow_dvd_pow 2 (by omega)
        rw [← Nat.mod_mod_of_dvd res hdvd, hres, Nat.zero_mod]
      rw [ih f (cur - d * 2 ^ (m + 1)) (res + 2 ^ (m + 1)) (by omega) hcur2
        (by omega) hres2]
      have hq : cur / d = 2 ^ (m + 1) + (cur - d * 2 ^ (m + 1)) / d := by
        have h1 : cur = d * 2 ^ (m + 1) + (cur - d * 2 ^ (m + 1)) := by omega
        conv_lhs => rw [h1]
        rw [Nat.mul_add_div hd]
      omega
    · have hres2 : res % 2 ^ (m + 1) = 0 := by
        have hdvd : (2 : Nat) ^ (m + 1) ∣ 2 ^ (m + 2) := pow_dvd_pow 2 (by omega)
        rw [← Nat.mod_mod_of_dvd res hdvd, hres, Nat.zero_mod]
      simp only [dld_loop, if_neg hc, hbitpos, if_false, hhalf_bit, hhalf_div]
      exact ih f cur res (by omega) (by rw [← hexp]; omega) hcurw hres2

/-- Functional correctness of `divide_large_divisor` for every same-width pair
with a nonzero divisor not exceeding the dividend (plus the trivial early-out). -/
theorem divide_large_divisor_correct (w D d : Nat) (hw : 0 < w) (hd : 0 < d)
    (hdD : d ≤ D) (hDw : D < 2 ^ w) :
    divide_large_divisor w D d = D / d := by
  unfold divide_large_divisor
  rw [if_neg (by omega)]
  obtain ⟨j, hj, heq, hle, hlt, _⟩ := alignF_spec w D hw hDw w d 1 (by omega) hd hdD
    (by
      have h1 : (2 : Nat) ^ w ≤ d * 2 ^ w := Nat.le_mul_of_pos_left _ hd
      omega)
  unfold align
  rw [heq]
  simp only [Nat.one_mul]
  have hjw : j < w := by
    have h1 : 2 ^ j ≤ d * 2 ^ j := Nat.le_mul_of_pos_left _ hd
    have h2 : 2 ^ j < 2 ^ w := by omega
    exact (Nat.pow_lt_pow_iff_right (by omega)).1 h2
  have hsub : (D + (2 ^ w - d * 2 ^ j)) % 2 ^ w = D - d * 2 ^ j := by
    have h1 : D + (2 ^ w - d * 2 ^ j) = D - d * 2 ^ j + 2 ^ w := by omega
    rw [h1, Nat.add_mod_right, Nat.mod_eq_of_lt (by omega)]
  rw [hsub]
  rcases Nat.eq_zero_or_pos j with hj0 | hjpos
  · subst hj0
    simp only [Nat.pow_zero, Nat.mul_one] at hle hlt ⊢
    have hD2 : D / d = 1 := Nat.div_eq_of_lt_le (by omega) (by omega)
    obtain ⟨f, rfl⟩ : ∃ f, w = f + 1 := ⟨w - 1, by omega⟩
    rw [show (1 : Nat) / 2 = 0 by norm_num]
    simp [dld_loop, hD2]
  · obtain ⟨i, rfl⟩ : ∃ i, j = i + 1 := ⟨j - 1, by omega⟩
    have hhalf_bit : 2 ^ (i + 1) / 2 = 2 ^ i := by
      rw [Nat.pow_succ, Nat.mul_div_cancel _ (by omega)]
    have hhalf_div : d * 2 ^ (i + 1) / 2 = d * 2 ^ i := by
      rw [Nat.pow_succ, ← Nat.mul_assoc, Nat.mul_div_cancel _ (by omega)]
    rw [hhalf_bit, hhalf_div]
    have hexp : d * 2 ^ (i + 1) = d * 2 ^ i * 2 := by rw [Nat.pow_succ]; ring
    have hcur : D - d * 2 ^ (i + 1) < d * 2 ^ i * 2 := by
      rw [← hexp]; omega
    rw [dld_loop_spec w d hd i w (D - d * 2 ^ (i + 1)) (2 ^ (i + 1)) (by omega) hcur
      (by omega) (Nat.mod_self _)]
    have hq : D / d = 2 ^ (i + 1) + (D - d * 2 ^ (i + 1)) / d := by
      have h1 : D = d * 2 ^ (i + 1) + (D - d * 2 ^ (i + 1)) := by omega
      conv_lhs => rw [h1]
      rw [Nat.mul_add_div hd]
    omega

/-! ## The facade: equivalence with native truncating division -/

/-- The narrowing guard of the facade implies the narrowing precondition of the
core: if the divisor exceeds the high half of the dividend, the quotient fits in
the divisor's width. -/
theorem narrow_fits (n D d : Nat) (hd : 0 < d) (hD : D < 2 ^ n * 2 ^ n)
    (hguard : D / 2 ^ n % 2 ^ n < d) : D / d < 2 ^ n := by
  have h1 : D / 2 ^ n < 2 ^ n := (Nat.div_lt_iff_lt_mul (by positivity)).2 hD
  rw [Nat.mod_eq_of_lt h1] at hguard
  have h2 : D < d * 2 ^ n := (Nat.div_lt_iff_lt_mul (by positivity)).1 hguard
  rw [Nat.div_lt_iff_lt_mul hd]
  calc D < d * 2 ^ n := h2
    _ = 2 ^ n * d := Nat.mul_comm _ _

theorem fast_div_u8_u8_eq (D d : Nat) (hd0 : 0 < d) : fast_div_u8_u8 D d = D / d := by
  unfold fast_div_u8_u8
  rw [if_neg (by omega)]

theorem fast_div_u16_u8_eq (D d : Nat) (hD : D < 2 ^ 16) (hd : d < 2 ^ 8)
    (hd0 : 0 < d) : fast_div_u16_u8 D d = D / d := by
  unfold fast_div_u16_u8
  rw [if_neg (by omega)]
  by_cases h1 : D < d
  · rw [if_pos h1]
    exact (Nat.div_eq_of_lt h1).symm
  rw [if_neg h1]
  by_cases h2 : D = d
  · subst h2
    rw [if_pos rfl]
    exact (Nat.div_self hd0).symm
  rw [if_neg h2]
  by_cases h3 : D / 2 ^ 8 % 2 ^ 8 < d
  · rw [if_pos h3]
    exact (divide_correct 8 D d (by norm_num) hd0 hd
      (narrow_fits 8 D d hd0 (by norm_num at hD ⊢; omega) h3)).1
  · rw [if_neg h3]

theorem fast_div_u16_u16_eq (D d : Nat) (hD : D < 2 ^ 16) (hd0 : 0 < d) :
    fast_div_u16_u16 D d = D / d := by
  unfold fast_div_u16_u16
  rw [if_neg (by omega)]
  by_cases h1 : D < d
  · rw [if_pos h1]
    exact (Nat.div_eq_of_lt h1).symm
  rw [if_neg h1]
  by_cases h2 : D = d
  · subst h2
    rw [if_pos rfl]
    exact (Nat.div_self hd0).symm
  rw [if_neg h2]
  by_cases h3 : d ≤ 255
  · rw [if_pos h3, Nat.mod_eq_of_lt (by norm_num; omega : d < 2 ^ 8)]
    exact fast_div_u16_u8_eq D d hD (by norm_num; omega) hd0
  · rw [if_neg h3]
    exact divide_large_divisor_correct 16 D d (by norm_num) hd0 (by omega) hD

theorem fast_div_u32_u16_eq (D d : Nat) (hD : D < 2 ^ 32) (hd : d < 2 ^ 16)
    (hd0 : 0 < d) : fast_div_u32_u16 D d = D / d := by
  unfold fast_div_u32_u16
  rw [if_neg (by omega)]
  by_cases h1 : D < d
  · rw [if_pos h1]
    exact (Nat.div_eq_of_lt h1).symm
  rw [if_neg h1]
  by_cases h2 : D = d
  · subst h2
    rw [if_pos rfl]
    exact (Nat.div_self hd0).symm
  rw [if_neg h2]
  by_cases h3 : D / 2 ^ 16 % 2 ^ 16 < d
  · rw [if_pos h3]
    exact (divide_correct 16 D d (by norm_num) hd0 hd
      (narrow_fits 16 D d hd0 (by norm_num at hD ⊢; omega) h3)).1
  rw [if_neg h3]
  by_cases h4 : D < 2 ^ 24 - 1
  · rw [if_pos h4, Nat.mod_eq_of_lt (by norm_num at h4 ⊢; omega),
      Nat.mod_eq_of_lt (by norm_num at hd ⊢; omega)]
  · rw [if_neg h4]

theorem fast_div_u32_u8_eq (D d : Nat) (hD : D < 2 ^ 32) (hd : d < 2 ^ 8)
    (hd0 : 0 < d) : fast_div_u32_u8 D d = D / d := by
  unfold fast_div_u32_u8
  rw [Nat.mod_eq_of_lt (by norm_num at hd ⊢; omega)]
  exact fast_div_u32_u16_eq D d hD (by norm_num at hd ⊢; omega) hd0

theorem fast_div_u32_u32_eq (D d : Nat) (hD : D < 2 ^ 32) (hd0 : 0 < d) :
    fast_div_u32_u32 D d = D / d := by
  unfold fast_div_u32_u32
  rw [if_neg (by omega)]
  by_cases h1 : D < d
  · rw [if_pos h1]
    exact (Nat.div_eq_of_lt h1).symm
  rw [if_neg h1]
  by_cases h2 : D = d
  · subst h2
    rw [if_pos rfl]
    exact (Nat.div_self hd0).symm
  rw [if_neg h2]
  by_cases h3 : d ≤ 65535
  · rw [if_pos h3, Nat.mod_eq_of_lt (by norm_num; omega : d < 2 ^ 16)]
    exact fast_div_u32_u16_eq D d hD (by norm_num; omega) hd0
  rw [if_neg h3]
  by_cases h4 : D < 2 ^ 24 - 1 ∧ d < 2 ^ 24 - 1
  · rw [if_pos h4]
    obtain ⟨h4a, h4b⟩ := h4
    rw [Nat.mod_eq_of_lt (by omega), Nat.mod_eq_of_lt (by omega)]
  · rw [if_neg h4]
    exact divide_large_divisor_correct 32 D d (by norm_num) hd0 (by omega) hD

/-! ## The signed facade -/

/-- `safe_abs` computes the exact mathematical absolute value for every value of
the signed `w`-bit type, including the minimum (`safe_abs w (-2^(w-1)) = 2^(w-1)`),
with no overflow. -/
theorem safe_abs_eq (w : Nat) (v : Int) (hw : 0 < w) (hlo : -(2 ^ (w - 1) : Int) ≤ v)
    (hhi : v < 2 ^ (w - 1)) : safe_abs w v = v.natAbs := by
  have hsplitI : (2 : Int) ^ w = 2 ^ (w - 1) * 2 := by
    rw [← pow_succ]; congr 1; omega
  have hsplitN : (2 : Nat) ^ w = 2 ^ (w - 1) * 2 := by
    rw [← Nat.pow_succ]; congr 1; omega
  have hc1 : ((2 ^ (w - 1) : Nat) : Int) = (2 : Int) ^ (w - 1) := by push_cast; ring
  have hc2 : ((2 ^ w : Nat) : Int) = (2 : Int) ^ w := by push_cast; ring
  unfold safe_abs toUnsigned
  by_cases hv : v < 0
  · rw [if_pos hv]
    have h2 : v % ((2 : Int) ^ w) = v + 2 ^ w := by
      conv_lhs => rw [show v = v + 2 ^ w + 2 ^ w * (-1) by ring]
      rw [Int.add_mul_emod_self_left]
      exact Int.emod_eq_of_lt (by omega) (by omega)
    rw [h2]
    have htn : ((v + (2 : Int) ^ w).toNat : Int) = v + 2 ^ w :=
      Int.toNat_of_nonneg (by omega)
    have hna : (v.natAbs : Int) = -v := Int.ofNat_natAbs_of_nonpos (by omega)
    rw [Nat.mod_eq_of_lt (by omega)]
    omega
  · rw [if_neg hv]
    have h2 : v % ((2 : Int) ^ w) = v := Int.emod_eq_of_lt (by omega) (by omega)
    rw [h2]
    have hna : (v.natAbs : Int) = v := Int.natAbs_of_nonneg (by omega)
    omega

/-- `wrapS` only depends on the argument's residue mod `2 ^ w`. -/
theorem wrapS_congr (w : Nat) (x y : Int) (h : x % (2 ^ w : Int) = y % (2 ^ w : Int)) :
    wrapS w x = wrapS w y := by
  unfold wrapS
  rw [Int.add_emod, h, ← Int.add_emod]

theorem wrapS_emod (w : Nat) (x : Int) :
    wrapS w x % (2 ^ w : Int) = x % (2 ^ w : Int) := by
  unfold wrapS
  rw [Int.sub_emod, Int.emod_emod_of_dvd _ dvd_rfl, ← Int.sub_emod,
    add_sub_cancel_right]

/-- Wrapping negation of a wrapped value equals wrapping the negated value: the
two's-complement round trips in the signed facade introduce no error mod `2^w`. -/
theorem wrapS_neg_wrapS (w : Nat) (x : Int) : wrapS w (-(wrapS w x)) = wrapS w (-x) := by
  apply wrapS_congr
  have h := wrapS_emod w x
  calc (-(wrapS w x)) % (2 ^ w : Int)
      = (0 - wrapS w x) % (2 ^ w : Int) := by ring_nf
    _ = (0 - x) % (2 ^ w : Int) := by
        rw [Int.sub_emod, h, ← Int.sub_emod]
    _ = (-x) % (2 ^ w : Int) := by ring_nf

/-- Truncating division expressed through the unsigned quotient of the magnitudes,
split by the signs of the operands. -/
theorem tdiv_of_signs (a b : Int) :
    (¬a < 0 → ¬b < 0 → a.tdiv b = ((a.natAbs / b.natAbs : Nat) : Int)) ∧
    (a < 0 → b < 0 → a.tdiv b = ((a.natAbs / b.natAbs : Nat) : Int)) ∧
    (a < 0 → ¬b < 0 → a.tdiv b = -((a.natAbs / b.natAbs : Nat) : Int)) ∧
    (¬a < 0 → b < 0 → a.tdiv b = -((a.natAbs / b.natAbs : Nat) : Int)) := by
  refine ⟨?_, ?_, ?_, ?_⟩
  · intro ha hb
    have ha' : (a.natAbs : Int) = a := Int.natAbs_of_nonneg (by omega)
    have hb' : (b.natAbs : Int) = b := Int.natAbs_of_nonneg (by omega)
    calc a.tdiv b = ((a.natAbs : Int)).tdiv ((b.natAbs : Int)) := by rw [ha', hb']
      _ = ((a.natAbs / b.natAbs : Nat) : Int) := by rw [← Int.ofNat_tdiv]
  · intro ha hb
    have ha' : (a.natAbs : Int) = -a := Int.ofNat_natAbs_of_nonpos (by omega)
    have hb' : (b.natAbs : Int) = -b := Int.ofNat_natAbs_of_nonpos (by omega)
    have ha2 : a = -(a.natAbs : Int) := by omega
    have hb2 : b = -(b.natAbs : Int) := by omega
    calc a.tdiv b = (-(a.natAbs : Int)).tdiv (-(b.natAbs : Int)) := by
          rw [← ha2, ← hb2]
      _ = ((a.natAbs / b.natAbs : Nat) : Int) := by
          rw [Int.neg_tdiv, Int.tdiv_neg, neg_neg, ← Int.ofNat_tdiv]
  · intro ha hb
    have ha' : (a.natAbs : Int) = -a := Int.ofNat_natAbs_of_nonpos (by omega)
    have hb' : (b.natAbs : Int) = b := Int.natAbs_of_nonneg (by omega)
    have ha2 : a = -(a.natAbs : Int) := by omega
    calc a.tdiv b = (-(a.natAbs : Int)).tdiv ((b.natAbs : Int)) := by
          rw [← ha2, hb']
      _ = -((a.natAbs / b.natAbs : Nat) : Int) := by
          rw [Int.neg_tdiv, ← Int.ofNat_tdiv]
  · intro ha hb
    have ha' : (a.natAbs : Int) = a := Int.natAbs_of_nonneg (by omega)
    have hb' : (b.natAbs : Int) = -b := Int.ofNat_natAbs_of_nonpos (by omega)
    have hb2 : b = -(b.natAbs : Int) := by omega
    calc a.tdiv b = ((a.natAbs : Int)).tdiv (-(b.natAbs : Int)) := by
          rw [ha', ← hb2]
      _ = -((a.natAbs / b.natAbs : Nat) : Int) := by
          rw [Int.tdiv_neg, ← Int.ofNat_tdiv]

/-- The signed facade computes (wrapped) truncating division whenever the unsigned
facade it dispatches to computes unsigned division. -/
theorem fast_div_signed_eq (w : Nat) (udiv : Nat → Nat → Nat) (a b : Int) (hw : 0 < w)
    (hudiv : ∀ D d, D < 2 ^ w → 0 < d → d < 2 ^ w → udiv D d = D / d)
    (ha1 : -(2 ^ (w - 1) : Int) ≤ a) (ha2 : a < 2 ^ (w - 1))
    (hb1 : -(2 ^ (w - 1) : Int) ≤ b) (hb2 : b < 2 ^ (w - 1)) (hb0 : b ≠ 0) :
    fast_div_signed w udiv a b = wrapS w (a.tdiv b) := by
  have hsplitI : (2 : Int) ^ w = 2 ^ (w - 1) * 2 := by
    rw [← pow_succ]; congr 1; omega
  have hsplitN : (2 : Nat) ^ w = 2 ^ (w - 1) * 2 := by
    rw [← Nat.pow_succ]; congr 1; omega
  have hc1 : ((2 ^ (w - 1) : Nat) : Int) = (2 : Int) ^ (w - 1) := by push_cast; ring
  have habs_a := safe_abs_eq w a hw ha1 ha2
  have habs_b := safe_abs_eq w b hw hb1 hb2
  have hna : a.natAbs < 2 ^ w := by omega
  have hnb0 : 0 < b.natAbs := by omega
  have hnb : b.natAbs < 2 ^ w := by omega
  have hur : udiv (safe_abs w a) (safe_abs w b) = a.natAbs / b.natAbs := by
    rw [habs_a, habs_b]
    exact hudiv _ _ hna hnb0 hnb
  simp only [fast_div_signed, hur]
  obtain ⟨hpp, hnn, hnp, hpn⟩ := tdiv_of_signs a b
  by_cases hsame : decide (a < 0) = decide (b < 0)
  · rw [if_pos hsame]
    have hiff : a < 0 ↔ b < 0 := decide_eq_decide.1 hsame
    by_cases hav : a < 0
    · rw [hnn hav (hiff.1 hav)]
      rfl
    · rw [hpp hav (fun hbv => hav (hiff.2 hbv))]
      rfl
  · rw [if_neg hsame]
    have hdiff : ¬(a < 0 ↔ b < 0) := fun h => hsame (decide_eq_decide.2 h)
    by_cases hav : a < 0
    · have hbv : ¬b < 0 := fun hbv => hdiff ⟨fun _ => hbv, fun _ => hav⟩
      rw [hnp hav hbv, wrapS_neg_wrapS]
      rfl
    · have hbv : b < 0 := by
        by_contra hbv
        exact hdiff ⟨fun h => absurd h hav, fun h => absurd h hbv⟩
      rw [hpn hav hbv, wrapS_neg_wrapS]
      rfl

/-! ## Claims -/

/-- **C1**: for every supported unsigned width pair (u8/u8, u16/u8, u16/u16,
u32/u8, u32/u16, u32/u32) and all in-range `(dividend, divisor)` with
`divisor ≠ 0`, `fast_div` equals native truncating division. -/
theorem C1_fast_div_eq_native :
    (∀ D d : Nat, D < 2 ^ 8 → 0 < d → d < 2 ^ 8 → fast_div_u8_u8 D d = D / d) ∧
    (∀ D d : Nat, D < 2 ^ 16 → 0 < d → d < 2 ^ 8 → fast_div_u16_u8 D d = D / d) ∧
    (∀ D d : Nat, D < 2 ^ 16 → 0 < d → d < 2 ^ 16 → fast_div_u16_u16 D d = D / d) ∧
    (∀ D d : Nat, D < 2 ^ 32 → 0 < d → d < 2 ^ 8 → fast_div_u32_u8 D d = D / d) ∧
    (∀ D d : Nat, D < 2 ^ 32 → 0 < d → d < 2 ^ 16 → fast_div_u32_u16 D d = D / d) ∧
    (∀ D d : Nat, D < 2 ^ 32 → 0 < d → d < 2 ^ 32 → fast_div_u32_u32 D d = D / d) :=
  ⟨fun D d _ hd0 _ => fast_div_u8_u8_eq D d hd0,
   fun D d hD hd0 hd => fast_div_u16_u8_eq D d hD hd hd0,
   fun D d hD hd0 _ => fast_div_u16_u16_eq D d hD hd0,
   fun D d hD hd0 hd => fast_div_u32_u8_eq D d hD hd hd0,
   fun D d hD hd0 hd => fast_div_u32_u16_eq D d hD hd hd0,
   fun D d hD hd0 _ => fast_div_u32_u32_eq D d hD hd0⟩

theorem C1_witness :
    fast_div_u16_u8 150 30 = 5 ∧ fast_div_u32_u32 3600000000 60000 = 60000 := by
  have h1 := C1_fast_div_eq_native.2.1 150 30 (by norm_num) (by norm_num) (by norm_num)
  have h2 := C1_fast_div_eq_native.2.2.2.2.2 3600000000 60000 (by norm_num) (by norm_num)
    (by norm_num)
  exact ⟨h1.trans (by norm_num), h2.trans (by norm_num)⟩

/-- **C2**: under the narrowing precondition (`dividend / divisor` fits in the
divisor's `n`-bit width, divisor nonzero), the core produces, after exactly `n`
shift-compare-subtract iterations (`divide_loop n divisor n`), an accumulator whose
low `n` bits are the quotient and whose high `n` bits are the remainder; `divide`
returns that quotient. -/
theorem C2_divide_correct (n D d : Nat) (hn : 0 < n) (hdpos : 0 < d) (hdw : d < 2 ^ n)
    (hfit : D / d < 2 ^ n) :
    divide n D d = D / d ∧
    divide_loop n d n D % 2 ^ n = D / d ∧
    divide_loop n d n D / 2 ^ n = D % d := by
  obtain ⟨h1, h2⟩ := divide_correct n D d hn hdpos hdw hfit
  exact ⟨h1, h1, h2⟩

theorem C2_witness :
    divide 8 60000 255 = 235 ∧ divide_loop 8 255 8 60000 / 2 ^ 8 = 60000 % 255 := by
  have h := C2_divide_correct 8 60000 255 (by norm_num) (by norm_num) (by norm_num)
    (by norm_num)
  exact ⟨h.1.trans (by norm_num), h.2.2⟩

/-- **C3**: for same-width unsigned operands with `0 < divisor ≤ dividend` (in
range), `divide_large_divisor` equals the native truncating quotient.  (The
divisor must be nonzero: native division is undefined at zero and the align loop
does not terminate there, see the `align` claims.) -/
theorem C3_divide_large_divisor_eq (w D d : Nat) (hw : 0 < w) (hd : 0 < d)
    (hdD : d ≤ D) (hDw : D < 2 ^ w) : divide_large_divisor w D d = D / d :=
  divide_large_divisor_correct w D d hw hd hdD hDw

theorem C3_witness :
    divide_large_divisor 16 65535 32768 = 1 ∧ divide_large_divisor 16 65535 65535 = 1 := by
  have h1 := C3_divide_large_divisor_eq 16 65535 32768 (by norm_num) (by norm_num)
    (by norm_num) (by norm_num)
  have h2 := C3_divide_large_divisor_eq 16 65535 65535 (by norm_num) (by norm_num)
    (by norm_num) (by norm_num)
  exact ⟨h1.trans (by norm_num), h2.trans (by norm_num)⟩

/-- **C4**: the facade's narrowing guard establishes the core's precondition: for a
`2n`-bit dividend, if `divisor > (high n bits of dividend)` then
`dividend / divisor < 2^n` (n = 8 gives the u16/u8 level, n = 16 the u32/u16
level); likewise when `udivResultFitsInDivisor` answers `true`.  Hence the facade
never calls the core with an unproven precondition. -/
theorem C4_narrowing_guard (n D d : Nat) (hn : 0 < n) (hd : 0 < d)
    (hD : D < 2 ^ (2 * n)) :
    (D / 2 ^ n % 2 ^ n < d → D / d < 2 ^ n) ∧
    (udivResultFitsInDivisor n D d = true → D / d < 2 ^ n) := by
  have hsplit : (2 : Nat) ^ (2 * n) = 2 ^ n * 2 ^ n := by
    rw [Nat.two_mul, Nat.pow_add]
  constructor
  · intro hg
    exact narrow_fits n D d hd (by omega) hg
  · intro hg
    unfold udivResultFitsInDivisor at hg
    rcases Bool.or_eq_true_iff.1 hg with h1 | h2
    · have hDd : D ≤ d := of_decide_eq_true h1
      have hq : D / d ≤ 1 := by
        calc D / d ≤ d / d := Nat.div_le_div_right hDd
          _ = 1 := Nat.div_self hd
      have h2n : 2 ≤ 2 ^ n := by
        calc 2 = 2 ^ 1 := rfl
          _ ≤ 2 ^ n := Nat.pow_le_pow_right (by omega) (by omega)
      omega
    · exact narrow_fits n D d hd (by omega) (of_decide_eq_true h2)

theorem C4_witness : 60000 / 235 < 2 ^ 8 :=
  (C4_narrowing_guard 8 60000 235 (by norm_num) (by norm_num) (by norm_num)).1
    (by norm_num)

/-- **C5**: for all in-range signed operands with nonzero divisor, the signed
`fast_div` overload equals native truncating division under AVR's wrap-around
overflow semantics (`wrapS w (a.tdiv b)`; `wrapS` is the identity except at the
single overflowing input `a = TYPE_MIN, b = -1`, where both the library and the
platform's division wrap to `TYPE_MIN`). -/
theorem C5_signed_fast_div_eq :
    (∀ a b : Int, -(2 ^ 7) ≤ a → a < 2 ^ 7 → -(2 ^ 7) ≤ b → b < 2 ^ 7 → b ≠ 0 →
      fast_div_i8 a b = wrapS 8 (a.tdiv b)) ∧
    (∀ a b : Int, -(2 ^ 15) ≤ a → a < 2 ^ 15 → -(2 ^ 15) ≤ b → b < 2 ^ 15 → b ≠ 0 →
      fast_div_i16 a b = wrapS 16 (a.tdiv b)) ∧
    (∀ a b : Int, -(2 ^ 31) ≤ a → a < 2 ^ 31 → -(2 ^ 31) ≤ b → b < 2 ^ 31 → b ≠ 0 →
      fast_div_i32 a b = wrapS 32 (a.tdiv b)) := by
  refine ⟨?_, ?_, ?_⟩ <;> intro a b ha1 ha2 hb1 hb2 hb0
  · exact fast_div_signed_eq 8 fast_div_u8_u8 a b (by norm_num)
      (fun D d _ hd0 _ => fast_div_u8_u8_eq D d hd0) ha1 ha2 hb1 hb2 hb0
  · exact fast_div_signed_eq 16 fast_div_u16_u16 a b (by norm_num)
      (fun D d hD hd0 _ => fast_div_u16_u16_eq D d hD hd0) ha1 ha2 hb1 hb2 hb0
  · exact fast_div_signed_eq 32 fast_div_u32_u32 a b (by norm_num)
      (fun D d hD hd0 _ => fast_div_u32_u32_eq D d hD hd0) ha1 ha2 hb1 hb2 hb0

theorem C5_witness :
    fast_div_i8 (-128) (-1) = -128 ∧ fast_div_i16 (-32768) 1 = -32768 := by
  have h1 := C5_signed_fast_div_eq.1 (-128) (-1) (by norm_num) (by norm_num)
    (by norm_num) (by norm_num) (by norm_num)
  have h2 := C5_signed_fast_div_eq.2.1 (-32768) 1 (by norm_num) (by norm_num)
    (by norm_num) (by norm_num) (by norm_num)
  exact ⟨h1.trans (by decide), h2.trans (by decide)⟩

/-- **C6 (counterexample)**: the claim "every `fast_div` entry point checks
`divisor == 0` before any width-narrowing test, and `fast_div(x, 0)` returns the
same fixed value for every supported width" is false on the legacy facade the
claim cites (`include/avr_fast_div.h` lines 313-330): at dividend 0, divisor 0,
the legacy u16/u8 overload's narrowing test passes (no zero check precedes it)
and the core is invoked with divisor 0, returning its max-quotient sentinel 255 —
while the current facade's u16/u8 entry point returns the documented fixed value
0 at the same input. -/
theorem C6_counterexample :
    legacy_fast_div_u16_u8 0 0 = 255 ∧ udivResultFitsInDivisor 8 0 0 = true ∧
    fast_div_u16_u8 0 0 = 0 ∧ (255 : Nat) ≠ 0 := by
  refine ⟨by decide, by decide, by decide, by decide⟩

/-- **C6 (amended)**: in the current facade (`src/avr-fast-div.h`), every entry
point — unsigned and signed — checks the divisor for zero before any
width-narrowing test and returns the same fixed value `0` for every dividend, so
none of *its* calls reaches a division algorithm with a zero divisor.  The legacy
facade (`include/avr_fast_div.h` lines 313-330) does not: its overloads run the
width-narrowing test with no zero-divisor check, and at `(0u16, (uint8_t)0)` the
u16/u8 overload (and the u16/u16 overload narrowing through it) reaches the core
with divisor 0 and returns the core's sentinel 255 instead of 0. -/
theorem C6_zero_divisor_policy :
    ((∀ D : Nat, fast_div_u8_u8 D 0 = 0) ∧ (∀ D : Nat, fast_div_u16_u8 D 0 = 0) ∧
    (∀ D : Nat, fast_div_u16_u16 D 0 = 0) ∧ (∀ D : Nat, fast_div_u32_u8 D 0 = 0) ∧
    (∀ D : Nat, fast_div_u32_u16 D 0 = 0) ∧ (∀ D : Nat, fast_div_u32_u32 D 0 = 0) ∧
    (∀ a : Int, fast_div_i8 a 0 = 0) ∧ (∀ a : Int, fast_div_i16 a 0 = 0) ∧
    (∀ a : Int, fast_div_i32 a 0 = 0)) ∧
    legacy_fast_div_u16_u8 0 0 = 255 ∧ legacy_fast_div_u16_u16 0 0 = 255 := by
  refine ⟨?_, by decide, by decide⟩
  have habs0 : ∀ w : Nat, safe_abs w 0 = 0 := by
    intro w
    simp [safe_abs, toUnsigned]
  have hu8 : ∀ D : Nat, fast_div_u8_u8 D 0 = 0 := fun D => by simp [fast_div_u8_u8]
  have hu16_8 : ∀ D : Nat, fast_div_u16_u8 D 0 = 0 := fun D => by simp [fast_div_u16_u8]
  have hu16 : ∀ D : Nat, fast_div_u16_u16 D 0 = 0 := fun D => by simp [fast_div_u16_u16]
  have hu32_16 : ∀ D : Nat, fast_div_u32_u16 D 0 = 0 := fun D => by
    simp [fast_div_u32_u16]
  have hu32_8 : ∀ D : Nat, fast_div_u32_u8 D 0 = 0 := fun D => by
    simp [fast_div_u32_u8, hu32_16]
  have hu32 : ∀ D : Nat, fast_div_u32_u32 D 0 = 0 := fun D => by simp [fast_div_u32_u32]
  have hsigned : ∀ (w : Nat) (udiv : Nat → Nat → Nat), 0 < w → (∀ D, udiv D 0 = 0) →
      ∀ a : Int, fast_div_signed w udiv a 0 = 0 := by
    intro w udiv hw hzero a
    simp only [fast_div_signed, habs0, hzero]
    have h1 : (2 : Int) ^ (w - 1) < 2 ^ w := by
      have hn : (2 : Nat) ^ (w - 1) < 2 ^ w := Nat.pow_lt_pow_right (by omega) (by omega)
      exact_mod_cast hn
    have h2 : (2 : Int) ^ (w - 1) % 2 ^ w = 2 ^ (w - 1) :=
      Int.emod_eq_of_lt (by positivity) h1
    have hwrap0 : wrapS w 0 = 0 := by
      unfold wrapS
      rw [zero_add, h2, sub_self]
    have hcast : (Int.ofNat 0) = (0 : Int) := rfl
    by_cases hav : decide (a < 0) = decide ((0 : Int) < 0)
    · rw [if_pos hav, hcast, hwrap0]
    · rw [if_neg hav, hcast, hwrap0, neg_zero, hwrap0]
  exact ⟨hu8, hu16_8, hu16, hu32_8, hu32_16, hu32,
    hsigned 8 fast_div_u8_u8 (by norm_num) hu8,
    hsigned 16 fast_div_u16_u16 (by norm_num) hu16,
    hsigned 32 fast_div_u32_u32 (by norm_num) hu32⟩

/-- **C7 (counterexample)**: the claim "divide handles divisor == 0 as an explicit
separate case returning maximum quotient and 0 remainder" is false on the code.
In the current core (`src/afd_implementation.hpp`) a zero divisor is fed straight
through the bit loop: at dividend 5 (n = 8) the accumulator's high half ends as 5,
not 0.  In the legacy checked core (`include/avr_fast_div.h`) the explicit case
returns `(1 << 8) * 2 - 1 = 511`, whose high half is 1, not 0. -/
theorem C7_counterexample :
    divide_loop 8 0 8 5 / 2 ^ 8 = 5 ∧ divide 8 5 0 = 255 ∧
    divide_checked 8 5 0 / 2 ^ 8 = 1 ∧ (5 : Nat) ≠ 0 ∧ (1 : Nat) ≠ 0 := by
  refine ⟨by decide, by decide, by decide, by decide, by decide⟩

/-- **C7 (amended)**: the current core has no explicit zero-divisor case; feeding
`divisor = 0` through the `n`-step bit loop yields the width-appropriate maximum
`2^n - 1` as quotient and `dividend mod 2^n` (not 0) as remainder.  The legacy
checked core returns `2^n * 2 - 1`: maximum quotient in the low half, remainder 1
in the high half. -/
theorem C7_zero_divisor_core (n D : Nat) (hn : 0 < n) (hD : D < 2 ^ (2 * n)) :
    divide n D 0 = 2 ^ n - 1 ∧ divide_loop n 0 n D / 2 ^ n = D % 2 ^ n ∧
    divide_checked n D 0 = 2 ^ n * 2 - 1 := by
  have h := divide_loop_zero_eq n D hn hD
  have hP : 0 < 2 ^ n := Nat.pos_pow_of_pos n (by omega)
  refine ⟨?_, ?_, rfl⟩
  · unfold divide
    rw [h, hi_lo_mod _ _ _ (by omega)]
  · rw [h, hi_lo_div _ _ _ hP (by omega)]

theorem C7_witness : divide 8 5 0 = 255 ∧ divide_loop 8 0 8 5 / 2 ^ 8 = 5 := by
  have h := C7_zero_divisor_core 8 5 (by norm_num) (by norm_num)
  exact ⟨h.1.trans (by norm_num), h.2.1.trans (by norm_num)⟩

/-- **C8**: for `0 < divisor ≤ dividend` (in range), the align step exits exactly
when the guard `is_aligned` holds — `(divisor << 1) > dividend`, or the top bit of
`divisor` is set (either way `dividend < 2 * aligned divisor`) — and on exit the
shifted divisor is still `≤ dividend`, so the single unconditional (wrapping)
subtraction that follows never wraps: it equals the exact natural subtraction. -/
theorem C8_align_no_underflow (w D d : Nat) (hw : 0 < w) (hd : 0 < d) (hdD : d ≤ D)
    (hDw : D < 2 ^ w) :
    is_aligned w D (align w D d).2 = true ∧
    (align w D d).2 ≤ D ∧ D < (align w D d).2 * 2 ∧
    (D + (2 ^ w - (align w D d).2)) % 2 ^ w = D - (align w D d).2 := by
  obtain ⟨j, _, heq, hle, hlt, hal⟩ := alignF_spec w D hw hDw w d 1 (by omega) hd hdD
    (by
      have h1 : (2 : Nat) ^ w ≤ d * 2 ^ w := Nat.le_mul_of_pos_left _ hd
      omega)
  have halign : align w D d = (2 ^ j, d * 2 ^ j) := by
    unfold align
    rw [heq]
    simp [Nat.one_mul]
  rw [halign]
  refine ⟨hal, hle, hlt, ?_⟩
  have h1 : D + (2 ^ w - d * 2 ^ j) = D - d * 2 ^ j + 2 ^ w := by omega
  rw [h1, Nat.add_mod_right, Nat.mod_eq_of_lt (by omega)]

theorem C8_witness :
    is_aligned 16 40000 (align 16 40000 300).2 = true ∧
    (align 16 40000 300).2 ≤ 40000 ∧ 40000 < (align 16 40000 300).2 * 2 ∧
    (40000 + (2 ^ 16 - (align 16 40000 300).2)) % 2 ^ 16 =
      40000 - (align 16 40000 300).2 :=
  C8_align_no_underflow 16 40000 300 (by norm_num) (by norm_num) (by norm_num)
    (by norm_num)

/-- **C9**: `safe_abs` returns the exact mathematical absolute value for every
value of a signed `w`-bit type, including the minimum representable value
(`safe_abs w (-2^(w-1)) = 2^(w-1)`), without overflow. -/
theorem C9_safe_abs_exact (w : Nat) (v : Int) (hw : 0 < w)
    (hlo : -(2 ^ (w - 1) : Int) ≤ v) (hhi : v < 2 ^ (w - 1)) :
    safe_abs w v = v.natAbs :=
  safe_abs_eq w v hw hlo hhi

theorem C9_witness : safe_abs 8 (-128) = 128 ∧ safe_abs 16 (-32768) = 32768 := by
  have h1 := C9_safe_abs_exact 8 (-128) (by norm_num) (by norm_num) (by norm_num)
  have h2 := C9_safe_abs_exact 16 (-32768) (by norm_num) (by norm_num) (by norm_num)
  exact ⟨h1.trans (by decide), h2.trans (by decide)⟩

/-- **C10**: for `1 ≤ dependent ≤ reference < 2^w` the align loop terminates after
at most `w - 1` shifts: running it with fuel `w - 1` already reaches a state where
the guard holds, and granting any more fuel changes nothing.  For `dependent = 0`
the guard `is_aligned` is false for every reference and the state never leaves
`dependent = 0`, so the C loop never exits. -/
theorem C10_align_termination :
    (∀ w ref dep fuel : Nat, 0 < w → 0 < dep → dep ≤ ref → ref < 2 ^ w →
      w - 1 ≤ fuel →
      alignF w ref fuel dep 1 = alignF w ref (w - 1) dep 1 ∧
      is_aligned w ref (alignF w ref (w - 1) dep 1).2 = true) ∧
    (∀ w ref : Nat, is_aligned w ref 0 = false) ∧
    (∀ w ref fuel bit : Nat, (alignF w ref fuel 0 bit).2 = 0) := by
  refine ⟨?_, is_aligned_zero_dep, alignF_zero_dep⟩
  intro w ref dep fuel hw hdep hdr hrefw hfuel
  have hbound : ∀ f : Nat, w - 1 ≤ f → ref < dep * 2 ^ f * 2 := by
    intro f hf
    have h1 : (2 : Nat) ^ (w - 1) ≤ 2 ^ f := Nat.pow_le_pow_right (by omega) hf
    have h2 : dep * 2 ^ (w - 1) * 2 ≤ dep * 2 ^ f * 2 := by
      have := Nat.mul_le_mul_left dep h1
      omega
    have h3 : (2 : Nat) ^ w = 2 ^ (w - 1) * 2 := by
      rw [← Nat.pow_succ]; congr 1; omega
    have h4 : 2 ^ (w - 1) * 2 ≤ dep * 2 ^ (w - 1) * 2 := by
      have h5 : 2 ^ (w - 1) ≤ dep * 2 ^ (w - 1) := Nat.le_mul_of_pos_left _ hdep
      omega
    omega
  obtain ⟨j1, hj1, heq1, hle1, hlt1, hal1⟩ := alignF_spec w ref hw hrefw fuel dep 1
    (by omega) hdep hdr (hbound fuel hfuel)
  obtain ⟨j2, hj2, heq2, hle2, hlt2, hal2⟩ := alignF_spec w ref hw hrefw (w - 1) dep 1
    (by omega) hdep hdr (hbound (w - 1) (Nat.le_refl _))
  have hjeq : j1 = j2 := by
    by_contra hne
    rcases Nat.lt_or_ge j1 j2 with hlt | hge
    · have hp : (2 : Nat) ^ (j1 + 1) ≤ 2 ^ j2 := Nat.pow_le_pow_right (by omega) (by omega)
      have hm : dep * 2 ^ (j1 + 1) ≤ dep * 2 ^ j2 := Nat.mul_le_mul_left dep hp
      have he : dep * 2 ^ (j1 + 1) = dep * 2 ^ j1 * 2 := by rw [Nat.pow_succ]; ring
      omega
    · have hlt' : j2 < j1 := by omega
      have hp : (2 : Nat) ^ (j2 + 1) ≤ 2 ^ j1 := Nat.pow_le_pow_right (by omega) (by omega)
      have hm : dep * 2 ^ (j2 + 1) ≤ dep * 2 ^ j1 := Nat.mul_le_mul_left dep hp
      have he : dep * 2 ^ (j2 + 1) = dep * 2 ^ j2 * 2 := by rw [Nat.pow_succ]; ring
      omega
  subst hjeq
  rw [heq1, heq2]
  exact ⟨rfl, hal2⟩

theorem C10_witness :
    alignF 16 40000 16 300 1 = alignF 16 40000 15 300 1 ∧
    is_aligned 16 40000 (alignF 16 40000 15 300 1).2 = true := by
  have h := C10_align_termination.1 16 40000 300 16 (by norm_num) (by norm_num)
    (by norm_num) (by norm_num) (by norm_num)
  exact h

end AvrFastDiv
